import Mathlib

/-!
Verification development for the `rust-hash-table` repository
(`src/hash_table.rs`): a generic open-addressing hash table with linear
probing, lazy deletion (tombstones) and capacity-doubling growth.

The Rust code is shallowly embedded as follows.

* `hash` embeds the free function `hash<K: Serialize>`: the key's canonical
  byte serialization is the `List Nat` of its bytes, `usize` arithmetic is
  `Nat` arithmetic taken modulo `W = 2 ^ 64` exactly where the Rust code
  wraps (`<<` discards overflowing bits, `wrapping_add` / `wrapping_sub`
  wrap modulo `2 ^ 64`).
* `HashElement` / `HashTable` embed the structs field by field; `Vec` is
  `List`, `usize` lengths are `Nat`.
* The table operations are generic over the key type `K` (with decidable
  equality, as `PartialEq` in the source) and over the hash function
  `hF : K → Nat`, exactly as the Rust code is generic over `Key: Serialize +
  PartialEq`.  Concrete instances use `K := List Nat` (a key identified with
  its serialized bytes) and `hF := hash`.
* Each `while` probe loop is embedded as a fuel-indexed recursion with fuel
  `t.size`.  The Rust loop visits positions `start, start+1, ...` modulo the
  (unchanged) slot count, so after `t.size` iterations it revisits `start`
  with the table unchanged: if no exit condition fired within `t.size`
  steps the Rust loop runs forever.  Hence `none` models exactly the
  diverging executions and `some` the terminating ones.
* `load_factor` returns `Rat` instead of `f64`; inside `insert` the test
  `load_factor() > 0.7` is embedded as the integer comparison
  `10 * len > 7 * size` (equal to the rational comparison by
  `load_factor_gt_iff`).  This is exact for every table the code can build:
  the capacity is always `64 * 2 ^ k`, so `len / capacity` is a dyadic
  rational whose distance to `0.7` exceeds the rounding error of the `f64`
  division for every capacity below `2 ^ 50`, making the `f64` comparison
  agree with the exact one (for `size = 0`, `0/0` is `NaN` in Rust and `0`
  in `Rat`; both make the comparison false).
-/

set_option linter.unusedSectionVars false

/-- Bit width of `usize` arithmetic: the crate targets 64-bit platforms. -/
def W : Nat := 2 ^ 64

/-- One folding step of `hash`:
`hash = (byte as usize).wrapping_add(hash << 6).wrapping_add(hash << 16).wrapping_sub(hash)`,
with every operation wrapping modulo `2 ^ 64`. -/
def hashStep (h b : Nat) : Nat :=
  let s1 := (b + (h <<< 6) % W) % W
  let s2 := (s1 + (h <<< 16) % W) % W
  (s2 + (W - h % W)) % W

/-- Embeds `fn hash<K: Serialize>(key: &K) -> usize`: fold the bytes of the
key's canonical serialization through the SDBM recurrence, accumulator
starting at `0`. -/
def hash (bytes : List Nat) : Nat :=
  bytes.foldl hashStep 0

/-- Modelled from the spec's words (section 4.1), for the refinement claim
about the hash function: "iteratively fold each byte into an accumulator
using the SDBM multiplicative/additive mixing recurrence:
`acc = byte + (acc << 6) + (acc << 16) - acc` (all arithmetic wraps on
overflow)".  Wrapping arithmetic is the ring `ZMod (2 ^ 64)`, where `<< 6`
and `<< 16` are multiplication by `2 ^ 6` and `2 ^ 16` and `-` is genuine
subtraction. -/
def sdbmSpecStep (acc : ZMod W) (b : Nat) : ZMod W :=
  (b : ZMod W) + acc * 2 ^ 6 + acc * 2 ^ 16 - acc

/-- Modelled from the spec's words (section 4.1): the SDBM reference digest,
folding `sdbmSpecStep` over the serialized bytes from accumulator `0`. -/
def sdbmSpec (bytes : List Nat) : ZMod W :=
  bytes.foldl sdbmSpecStep 0

/-- Embeds `struct HashElement<Key, Value>` field by field. -/
structure HashElement (K V : Type) where
  key : K
  value : V
  default : Bool
  deleted : Bool
deriving DecidableEq, Repr

/-- Embeds `struct HashTable<Key, Value> { kvs: Vec<HashElement<Key, Value>>, len: usize }`. -/
structure HashTable (K V : Type) where
  kvs : List (HashElement K V)
  len : Nat
deriving DecidableEq, Repr

/-- Embeds `const INITIAL_CAPACITY: usize = 64`. -/
def INITIAL_CAPACITY : Nat := 64

variable {K V : Type} [DecidableEq K] [Inhabited K] [Inhabited V]

/-- The all-default slot used by `new` and `resize`:
`HashElement { key: Key::default(), value: Value::default(), default: true, deleted: false }`.
`Default::default()` of the Rust type parameters is the `Inhabited` default. -/
def emptyElem : HashElement K V :=
  ⟨Inhabited.default, Inhabited.default, true, false⟩

/-- Embeds `pub fn size(&self) -> usize { self.kvs.len() }`. -/
def HashTable.size (t : HashTable K V) : Nat :=
  t.kvs.length

-- `pub fn len(&self) -> usize { self.len }` is the structure field `len` itself.

/-- Embeds `pub fn is_empty(&self) -> bool { self.len == 0 }`. -/
def HashTable.is_empty (t : HashTable K V) : Bool :=
  t.len == 0

/-- Embeds the slot access `self.kvs[pos]`.  Every access in the source has `pos < self.size()`
(it is always reduced modulo the slot count first), so the out-of-range
default is never consulted. -/
def slotAt (t : HashTable K V) (pos : Nat) : HashElement K V :=
  t.kvs.getD pos emptyElem

/-- Embeds `pub fn new() -> Self`: `INITIAL_CAPACITY` default slots, length `0`. -/
def HashTable.new : HashTable K V :=
  ⟨List.replicate INITIAL_CAPACITY emptyElem, 0⟩

/-- Embeds `fn load_factor(&self) -> f64 { self.len as f64 / self.size() as f64 }`,
embedded with exact rational arithmetic (see the header note on exactness). -/
def HashTable.load_factor (t : HashTable K V) : Rat :=
  (t.len : Rat) / (t.size : Rat)

/-- Embeds `fn resize(&mut self)`: `self.kvs.resize(self.size() * 2, <default element>)`
extends the slot vector to twice its length by appending `self.size()`
fresh default slots; existing slots and `len` are untouched. -/
def HashTable.resize (t : HashTable K V) : HashTable K V :=
  ⟨t.kvs ++ List.replicate t.size emptyElem, t.len⟩

/-- The probe loop of `insert`:
`while !self.kvs[pos].default && !self.kvs[pos].deleted { if key matches, overwrite value and return; pos = (pos + 1) % self.size() }`
followed by writing `HashElement { key, value, default: false, deleted: false }`
at the exit position and incrementing `len`.  `none` models the diverging
execution in which no exit condition fires (see header). -/
def insertLoop (t : HashTable K V) (key : K) (value : V) (pos fuel : Nat) :
    Option (HashTable K V) :=
  match fuel with
  | 0 => none
  | fuel + 1 =>
    let e := slotAt t pos
    if e.default = true ∨ e.deleted = true then
      some ⟨t.kvs.set pos ⟨key, value, false, false⟩, t.len + 1⟩
    else if e.key = key then
      some ⟨t.kvs.set pos ⟨e.key, value, e.default, e.deleted⟩, t.len⟩
    else
      insertLoop t key value ((pos + 1) % t.size) fuel

/-- Embeds `pub fn insert(&mut self, key: Key, value: Value)`: resize when
`load_factor() > 0.7`, then probe from `hash(&key) % self.size()`.  The test
`self.load_factor() > 0.7` is embedded as the equivalent exact integer
comparison `10 * len > 7 * size`; `load_factor_gt_iff` below proves it equal
to the rational comparison of the `load_factor` embedding (and the header
note explains why the `f64` comparison agrees). -/
def HashTable.insert (hF : K → Nat) (t : HashTable K V) (key : K) (value : V) :
    Option (HashTable K V) :=
  let t1 := if 10 * t.len > 7 * t.size then t.resize else t
  insertLoop t1 key value (hF key % t1.size) t1.size

/-- The probe loop of `get`: same scan, returning `Some(&value)` on a key
match and `None` once an empty or deleted slot is reached.  The outer
`Option` models divergence, the inner one the Rust `Option`. -/
def getLoop (t : HashTable K V) (key : K) (pos fuel : Nat) :
    Option (Option V) :=
  match fuel with
  | 0 => none
  | fuel + 1 =>
    let e := slotAt t pos
    if e.default = true ∨ e.deleted = true then
      some none
    else if e.key = key then
      some (some e.value)
    else
      getLoop t key ((pos + 1) % t.size) fuel

/-- Embeds `pub fn get(&self, key: &Key) -> Option<&Value>`. -/
def HashTable.get (hF : K → Nat) (t : HashTable K V) (key : K) :
    Option (Option V) :=
  getLoop t key (hF key % t.size) t.size

/-- The probe loop of `get_mut`.  The returned mutable reference is embedded
as the pair of the slot index it points into and the value currently read
through it; writing through the reference is `HashTable.writeValue` below. -/
def getMutLoop (t : HashTable K V) (key : K) (pos fuel : Nat) :
    Option (Option (Nat × V)) :=
  match fuel with
  | 0 => none
  | fuel + 1 =>
    let e := slotAt t pos
    if e.default = true ∨ e.deleted = true then
      some none
    else if e.key = key then
      some (some (pos, e.value))
    else
      getMutLoop t key ((pos + 1) % t.size) fuel

/-- Embeds `pub fn get_mut(&mut self, key: &Key) -> Option<&mut Value>`; the table
itself is not modified (the borrow only grants later write access). -/
def HashTable.get_mut (hF : K → Nat) (t : HashTable K V) (key : K) :
    Option (Option (Nat × V)) :=
  getMutLoop t key (hF key % t.size) t.size

/-- Embeds `*reference = v` through the reference returned by `get_mut`: replace
the value stored in slot `pos`, touching nothing else. -/
def HashTable.writeValue (t : HashTable K V) (pos : Nat) (v : V) :
    HashTable K V :=
  ⟨t.kvs.set pos
    ⟨(slotAt t pos).key, v, (slotAt t pos).default, (slotAt t pos).deleted⟩,
   t.len⟩

/-- The probe loop of `remove`:
`while pos < self.size() && !self.kvs[pos].default && !self.kvs[pos].deleted`;
on a key match the slot is marked `deleted`, `len` is decremented and a
clone of the value is returned.  The first conjunct of the `while` is in
the source as a defensive bound; `pos` is always `< self.size()` here. -/
def removeLoop (t : HashTable K V) (key : K) (pos fuel : Nat) :
    Option (Option V × HashTable K V) :=
  match fuel with
  | 0 => none
  | fuel + 1 =>
    if pos < t.size then
      let e := slotAt t pos
      if e.default = true ∨ e.deleted = true then
        some (none, t)
      else if e.key = key then
        some (some e.value, ⟨t.kvs.set pos ⟨e.key, e.value, e.default, true⟩, t.len - 1⟩)
      else
        removeLoop t key ((pos + 1) % t.size) fuel
    else
      some (none, t)

/-- Embeds `pub fn remove(&mut self, key: Key) -> Option<Value>`. -/
def HashTable.remove (hF : K → Nat) (t : HashTable K V) (key : K) :
    Option (Option V × HashTable K V) :=
  removeLoop t key (hF key % t.size) t.size

/-- Folding `insert` over a list of pairs, propagating divergence. -/
def insertAll (hF : K → Nat) (ps : List (K × V)) (t : HashTable K V) :
    Option (HashTable K V) :=
  match ps with
  | [] => some t
  | (k, v) :: rest =>
    match t.insert hF k v with
    | some t' => insertAll hF rest t'
    | none => none

/-- Embeds `pub fn from(v: Vec<(Key, Value)>) -> Self`: start from `new()` and
insert each pair in order. -/
def HashTable.fromList (hF : K → Nat) (ps : List (K × V)) :
    Option (HashTable K V) :=
  insertAll hF ps HashTable.new

/-!
## Analysis layer

All four probe loops perform the same scan over the slots; `scanLoop`
captures it once and the loops are proved equal to `Option.map`s of it.
-/

/-- Outcome of the shared probe scan: the first slot at which the scan
stops, either an empty-or-tombstoned slot (`free`) or an occupied slot
whose key matches (`found`). -/
inductive ScanHit : Type where
  | found : Nat → ScanHit
  | free : Nat → ScanHit
deriving DecidableEq, Repr

/-- The scan common to `insert`, `get`, `get_mut` and `remove`. -/
def scanLoop (t : HashTable K V) (key : K) (pos fuel : Nat) :
    Option ScanHit :=
  match fuel with
  | 0 => none
  | fuel + 1 =>
    let e := slotAt t pos
    if e.default = true ∨ e.deleted = true then
      some (ScanHit.free pos)
    else if e.key = key then
      some (ScanHit.found pos)
    else
      scanLoop t key ((pos + 1) % t.size) fuel

/-- The hit the scan produces when it stops at slot `p`. -/
def scanHitAt (t : HashTable K V) (p : Nat) : ScanHit :=
  if (slotAt t p).default = true ∨ (slotAt t p).deleted = true then
    ScanHit.free p
  else
    ScanHit.found p

/-- The slot `e` stops the probe scan for `key`: it is empty, tombstoned,
or occupied by `key` itself. -/
def Stops (key : K) (e : HashElement K V) : Prop :=
  e.default = true ∨ e.deleted = true ∨ e.key = key

instance (key : K) (e : HashElement K V) : Decidable (Stops key e) := by
  unfold Stops
  infer_instance

/-- Position visited by the `j`-th iteration of a probe loop started at
`start` (for `start < t.size`). -/
def probePos (t : HashTable K V) (start j : Nat) : Nat :=
  (start + j) % t.size

/-- A slot is occupied iff it is neither empty nor tombstoned. -/
def isOcc (e : HashElement K V) : Bool :=
  !e.default && !e.deleted

/-- Number of occupied slots. -/
def occCount (t : HashTable K V) : Nat :=
  t.kvs.countP isOcc

/-- Well-formedness of a table state, established by `new` and preserved by
all operations: `len` counts the occupied slots, at least one slot is not
occupied, and the capacity is at least the initial one. -/
def WF (t : HashTable K V) : Prop :=
  t.len = occCount t ∧ t.len < t.size ∧ 4 ≤ t.size

instance (t : HashTable K V) : Decidable (WF t) := by
  unfold WF
  infer_instance

/-- Table states reachable through the public constructors and the mutating
operations (`get`/`get_mut` do not change the state). -/
inductive Reachable (hF : K → Nat) : HashTable K V → Prop where
  | new : Reachable hF HashTable.new
  | insert {t t' : HashTable K V} {k : K} {v : V} :
      Reachable hF t → t.insert hF k v = some t' → Reachable hF t'
  | remove {t t' : HashTable K V} {k : K} {r : Option V} :
      Reachable hF t → t.remove hF k = some (r, t') → Reachable hF t'
  | ofList {ps : List (K × V)} {t : HashTable K V} :
      HashTable.fromList hF ps = some t → Reachable hF t

/-!
## Generic list helpers
-/

theorem getD_set_self {α : Type} (l : List α) (i : Nat) (a d : α)
    (h : i < l.length) : (l.set i a).getD i d = a := by
  induction l generalizing i with
  | nil => simp at h
  | cons x xs ih =>
    cases i with
    | zero => rfl
    | succ n =>
      simp only [List.set, List.getD, List.get?_eq_getElem?]
      have hn : n < xs.length := by simpa using h
      simpa [List.getD] using ih n hn

theorem getD_set_other {α : Type} (l : List α) (i j : Nat) (a d : α)
    (h : i ≠ j) : (l.set i a).getD j d = l.getD j d := by
  induction l generalizing i j with
  | nil => simp
  | cons x xs ih =>
    cases i with
    | zero =>
      cases j with
      | zero => exact absurd rfl h
      | succ m => rfl
    | succ n =>
      cases j with
      | zero => rfl
      | succ m =>
        simp only [List.set, List.getD, List.get?_eq_getElem?]
        have : n ≠ m := by omega
        simpa [List.getD] using ih n m this

theorem countP_set {α : Type} (p : α → Bool) (l : List α) (i : Nat)
    (a d : α) (h : i < l.length) :
    (l.set i a).countP p + (if p (l.getD i d) then 1 else 0) =
      l.countP p + (if p a then 1 else 0) := by
  induction l generalizing i with
  | nil => simp at h
  | cons x xs ih =>
    cases i with
    | zero =>
      simp only [List.set, List.countP_cons, List.getD_cons_zero]
      by_cases hx : p x <;> by_cases ha : p a <;> simp [hx, ha]
    | succ n =>
      have hn : n < xs.length := by simpa using h
      have ih' := ih n hn
      simp only [List.set, List.countP_cons, List.getD_cons_succ]
      omega

theorem countP_replicate_not {α : Type} (p : α → Bool) (n : Nat) (a : α)
    (h : p a = false) : (List.replicate n a).countP p = 0 := by
  induction n with
  | zero => simp
  | succ m ih => simp [List.replicate, List.countP_cons, h, ih]

theorem countP_pos_of_getD {α : Type} (p : α → Bool) (l : List α) (i : Nat)
    (d : α) (hi : i < l.length) (h : p (l.getD i d) = true) :
    1 ≤ l.countP p := by
  induction l generalizing i with
  | nil => simp at hi
  | cons x xs ih =>
    cases i with
    | zero =>
      simp only [List.getD_cons_zero] at h
      simp [List.countP_cons, h]
    | succ n =>
      have hn : n < xs.length := by simpa using hi
      simp only [List.getD_cons_succ] at h
      have := ih n hn h
      simp [List.countP_cons]
      omega

theorem countP_lt_length_exists {α : Type} (p : α → Bool) (l : List α)
    (d : α) (h : l.countP p < l.length) :
    ∃ i, i < l.length ∧ p (l.getD i d) = false := by
  induction l with
  | nil => simp at h
  | cons x xs ih =>
    by_cases hx : p x
    · have hx' : xs.countP p < xs.length := by
        simp [List.countP_cons, hx] at h
        omega
      obtain ⟨i, hi, hpi⟩ := ih hx'
      exact ⟨i + 1, by simpa using hi, by simpa using hpi⟩
    · exact ⟨0, by simp, by simpa using hx⟩

/-!
## Probe-position arithmetic
-/

theorem probePos_zero (t : HashTable K V) (pos : Nat) (h : pos < t.size) :
    probePos t pos 0 = pos := by
  simp [probePos, Nat.mod_eq_of_lt h]

theorem probePos_lt (t : HashTable K V) (pos j : Nat) (h : 0 < t.size) :
    probePos t pos j < t.size :=
  Nat.mod_lt _ h

theorem probePos_shift (t : HashTable K V) (pos m : Nat) :
    probePos t ((pos + 1) % t.size) m = probePos t pos (m + 1) := by
  unfold probePos
  rw [Nat.mod_add_mod]
  congr 1
  omega

theorem probePos_inj (t : HashTable K V) (pos m1 m2 : Nat)
    (h1 : m1 < t.size) (h2 : m2 < t.size)
    (h : probePos t pos m1 = probePos t pos m2) : m1 = m2 := by
  unfold probePos at h
  have hmod : m1 % t.size = m2 % t.size :=
    Nat.ModEq.add_left_cancel' pos h
  rwa [Nat.mod_eq_of_lt h1, Nat.mod_eq_of_lt h2] at hmod

theorem probePos_covers (t : HashTable K V) (pos i : Nat)
    (hpos : pos < t.size) (hi : i < t.size) :
    ∃ m, m < t.size ∧ probePos t pos m = i := by
  refine ⟨(i + t.size - pos) % t.size, Nat.mod_lt _ (by omega), ?_⟩
  unfold probePos
  rw [Nat.add_comm pos, Nat.mod_add_mod]
  have h1 : i + t.size - pos + pos = i + t.size := by omega
  rw [h1, Nat.add_mod_right, Nat.mod_eq_of_lt hi]

/-!
## Loop / scan correspondence

Each literal probe loop is the `Option.map` of `scanLoop` under the function
applying its effect at the stop slot.
-/

/-- Effect of `get` at the stop slot. -/
def getApply (t : HashTable K V) : ScanHit → Option V
  | ScanHit.free _ => none
  | ScanHit.found p => some (slotAt t p).value

/-- Effect of `get_mut` at the stop slot. -/
def getMutApply (t : HashTable K V) : ScanHit → Option (Nat × V)
  | ScanHit.free _ => none
  | ScanHit.found p => some (p, (slotAt t p).value)

/-- Effect of `insert` at the stop slot. -/
def insertApply (t : HashTable K V) (key : K) (value : V) :
    ScanHit → HashTable K V
  | ScanHit.free p => ⟨t.kvs.set p ⟨key, value, false, false⟩, t.len + 1⟩
  | ScanHit.found p =>
      ⟨t.kvs.set p
        ⟨(slotAt t p).key, value, (slotAt t p).default, (slotAt t p).deleted⟩,
       t.len⟩

/-- Effect of `remove` at the stop slot. -/
def removeApply (t : HashTable K V) : ScanHit → Option V × HashTable K V
  | ScanHit.free _ => (none, t)
  | ScanHit.found p =>
      (some (slotAt t p).value,
       ⟨t.kvs.set p
         ⟨(slotAt t p).key, (slotAt t p).value, (slotAt t p).default, true⟩,
        t.len - 1⟩)

theorem getLoop_eq_scan (t : HashTable K V) (k : K) :
    ∀ fuel pos, getLoop t k pos fuel =
      (scanLoop t k pos fuel).map (getApply t) := by
  intro fuel
  induction fuel with
  | zero => intro pos; rfl
  | succ n ih =>
    intro pos
    by_cases h1 : (slotAt t pos).default = true ∨ (slotAt t pos).deleted = true
    · simp [getLoop, scanLoop, h1, getApply]
    · by_cases h2 : (slotAt t pos).key = k
      · simp [getLoop, scanLoop, h1, h2, getApply]
      · simp [getLoop, scanLoop, h1, h2, ih]

theorem getMutLoop_eq_scan (t : HashTable K V) (k : K) :
    ∀ fuel pos, getMutLoop t k pos fuel =
      (scanLoop t k pos fuel).map (getMutApply t) := by
  intro fuel
  induction fuel with
  | zero => intro pos; rfl
  | succ n ih =>
    intro pos
    by_cases h1 : (slotAt t pos).default = true ∨ (slotAt t pos).deleted = true
    · simp [getMutLoop, scanLoop, h1, getMutApply]
    · by_cases h2 : (slotAt t pos).key = k
      · simp [getMutLoop, scanLoop, h1, h2, getMutApply]
      · simp [getMutLoop, scanLoop, h1, h2, ih]

theorem insertLoop_eq_scan (t : HashTable K V) (k : K) (v : V) :
    ∀ fuel pos, insertLoop t k v pos fuel =
      (scanLoop t k pos fuel).map (insertApply t k v) := by
  intro fuel
  induction fuel with
  | zero => intro pos; rfl
  | succ n ih =>
    intro pos
    by_cases h1 : (slotAt t pos).default = true ∨ (slotAt t pos).deleted = true
    · simp [insertLoop, scanLoop, h1, insertApply]
    · by_cases h2 : (slotAt t pos).key = k
      · simp [insertLoop, scanLoop, h1, h2, insertApply]
      · simp [insertLoop, scanLoop, h1, h2, ih]

theorem removeLoop_eq_scan (t : HashTable K V) (k : K) :
    ∀ fuel pos, pos < t.size → removeLoop t k pos fuel =
      (scanLoop t k pos fuel).map (removeApply t) := by
  intro fuel
  induction fuel with
  | zero => intro pos _; rfl
  | succ n ih =>
    intro pos hpos
    by_cases h1 : (slotAt t pos).default = true ∨ (slotAt t pos).deleted = true
    · simp [removeLoop, scanLoop, hpos, h1, removeApply]
    · by_cases h2 : (slotAt t pos).key = k
      · simp [removeLoop, scanLoop, hpos, h1, h2, removeApply]
      · have hlt : (pos + 1) % t.size < t.size := Nat.mod_lt _ (by omega)
        simp [removeLoop, scanLoop, hpos, h1, h2, ih _ hlt]

/-!
## Scan analysis

The scan stops at the first position (in probe order) whose slot is empty,
tombstoned, or holds the probed key; `scan_first` computes the scan from
that description, `scan_some_spec` recovers the description from a
terminating scan, and `scan_congr` transports scans between tables whose
slots agree on the fields the scan inspects.
-/

theorem scan_first (t : HashTable K V) (k : K) :
    ∀ j fuel pos, pos < t.size → j < fuel →
      (∀ m, m < j → ¬ Stops k (slotAt t (probePos t pos m))) →
      Stops k (slotAt t (probePos t pos j)) →
      scanLoop t k pos fuel = some (scanHitAt t (probePos t pos j)) := by
  intro j
  induction j with
  | zero =>
    intro fuel pos hpos hj hbefore hstop
    obtain ⟨n, rfl⟩ : ∃ n, fuel = n + 1 := ⟨fuel - 1, by omega⟩
    rw [probePos_zero t pos hpos] at hstop ⊢
    by_cases h1 : (slotAt t pos).default = true ∨ (slotAt t pos).deleted = true
    · simp [scanLoop, scanHitAt, h1]
    · have h2 : (slotAt t pos).key = k := by
        rcases hstop with h | h | h
        · exact absurd (Or.inl h) h1
        · exact absurd (Or.inr h) h1
        · exact h
      simp [scanLoop, scanHitAt, h1, h2]
  | succ n ih =>
    intro fuel pos hpos hj hbefore hstop
    obtain ⟨f, rfl⟩ : ∃ f, fuel = f + 1 := ⟨fuel - 1, by omega⟩
    have hnostop : ¬ Stops k (slotAt t pos) := by
      have := hbefore 0 (by omega)
      rwa [probePos_zero t pos hpos] at this
    have h1 : ¬ ((slotAt t pos).default = true ∨ (slotAt t pos).deleted = true) := by
      intro h
      rcases h with h | h
      · exact hnostop (Or.inl h)
      · exact hnostop (Or.inr (Or.inl h))
    have h2 : ¬ (slotAt t pos).key = k := fun h => hnostop (Or.inr (Or.inr h))
    have hpos' : (pos + 1) % t.size < t.size := Nat.mod_lt _ (by omega)
    have hshift : ∀ m, probePos t ((pos + 1) % t.size) m = probePos t pos (m + 1) :=
      fun m => probePos_shift t pos m
    have hbefore' : ∀ m, m < n → ¬ Stops k (slotAt t (probePos t ((pos + 1) % t.size) m)) := by
      intro m hm
      rw [hshift m]
      exact hbefore (m + 1) (by omega)
    have hstop' : Stops k (slotAt t (probePos t ((pos + 1) % t.size) n)) := by
      rw [hshift n]
      exact hstop
    have := ih f ((pos + 1) % t.size) hpos' (by omega) hbefore' hstop'
    rw [hshift n] at this
    simp [scanLoop, h1, h2]
    exact this

theorem scan_some_spec (t : HashTable K V) (k : K) :
    ∀ fuel pos h, pos < t.size → scanLoop t k pos fuel = some h →
      ∃ j, j < fuel ∧
        (∀ m, m < j → ¬ Stops k (slotAt t (probePos t pos m))) ∧
        Stops k (slotAt t (probePos t pos j)) ∧
        h = scanHitAt t (probePos t pos j) := by
  intro fuel
  induction fuel with
  | zero => intro pos h _ hscan; simp [scanLoop] at hscan
  | succ n ih =>
    intro pos h hpos hscan
    by_cases h1 : (slotAt t pos).default = true ∨ (slotAt t pos).deleted = true
    · refine ⟨0, by omega, by omega, ?_, ?_⟩
      · rw [probePos_zero t pos hpos]
        rcases h1 with h1 | h1
        · exact Or.inl h1
        · exact Or.inr (Or.inl h1)
      · simp [scanLoop, h1] at hscan
        rw [probePos_zero t pos hpos]
        simp [scanHitAt, h1]
        exact hscan.symm
    · by_cases h2 : (slotAt t pos).key = k
      · refine ⟨0, by omega, by omega, ?_, ?_⟩
        · rw [probePos_zero t pos hpos]
          exact Or.inr (Or.inr h2)
        · simp [scanLoop, h1, h2] at hscan
          rw [probePos_zero t pos hpos]
          simp [scanHitAt, h1]
          exact hscan.symm
      · have hpos' : (pos + 1) % t.size < t.size := Nat.mod_lt _ (by omega)
        have hscan' : scanLoop t k ((pos + 1) % t.size) n = some h := by
          simpa [scanLoop, h1, h2] using hscan
        obtain ⟨j, hj, hbefore, hstop, hh⟩ := ih _ h hpos' hscan'
        refine ⟨j + 1, by omega, ?_, ?_, ?_⟩
        · intro m hm
          cases m with
          | zero =>
            rw [probePos_zero t pos hpos]
            intro hs
            rcases hs with hs | hs | hs
            · exact h1 (Or.inl hs)
            · exact h1 (Or.inr hs)
            · exact h2 hs
          | succ m' =>
            have := hbefore m' (by omega)
            rwa [probePos_shift t pos m'] at this
        · have := hstop
          rwa [probePos_shift t pos j] at this
        · rw [hh, probePos_shift t pos j]

theorem scan_isSome_of_stop (t : HashTable K V) (k : K) :
    ∀ fuel pos, pos < t.size →
      (∃ j, j < fuel ∧ Stops k (slotAt t (probePos t pos j))) →
      (scanLoop t k pos fuel).isSome := by
  intro fuel pos hpos ⟨j, hj, hstop⟩
  have hP : ∃ m, Stops k (slotAt t (probePos t pos m)) := ⟨j, hstop⟩
  classical
  have hfind := Nat.find_spec hP
  have hmin : ∀ m, m < Nat.find hP → ¬ Stops k (slotAt t (probePos t pos m)) :=
    fun m hm => Nat.find_min hP hm
  have hle : Nat.find hP ≤ j := Nat.find_min' hP hstop
  rw [scan_first t k (Nat.find hP) fuel pos hpos (by omega) hmin hfind]
  rfl

theorem scan_congr (t t' : HashTable K V) (k : K)
    (hsize : t'.size = t.size)
    (hshape : ∀ i, i < t.size →
      (slotAt t' i).default = (slotAt t i).default ∧
      (slotAt t' i).deleted = (slotAt t i).deleted ∧
      (slotAt t' i).key = (slotAt t i).key) :
    ∀ fuel pos, pos < t.size →
      scanLoop t' k pos fuel = scanLoop t k pos fuel := by
  intro fuel
  induction fuel with
  | zero => intro pos _; rfl
  | succ n ih =>
    intro pos hpos
    obtain ⟨hd, hdel, hk⟩ := hshape pos hpos
    have hpos' : (pos + 1) % t.size < t.size := Nat.mod_lt _ (by omega)
    by_cases h1 : (slotAt t pos).default = true ∨ (slotAt t pos).deleted = true
    · have h1' : (slotAt t' pos).default = true ∨ (slotAt t' pos).deleted = true := by
        rw [hd, hdel]; exact h1
      simp [scanLoop, h1, h1']
    · have h1' : ¬ ((slotAt t' pos).default = true ∨ (slotAt t' pos).deleted = true) := by
        rw [hd, hdel]; exact h1
      by_cases h2 : (slotAt t pos).key = k
      · have h2' : (slotAt t' pos).key = k := by rw [hk]; exact h2
        simp [scanLoop, h1, h1', h2, h2']
      · have h2' : ¬ (slotAt t' pos).key = k := by rw [hk]; exact h2
        have := ih ((pos + 1) % t.size) hpos'
        simp [scanLoop, h1, h1', h2, h2', hsize]
        exact this

/-!
## Slot and occupancy bookkeeping
-/

theorem isOcc_false_iff (e : HashElement K V) :
    isOcc e = false ↔ (e.default = true ∨ e.deleted = true) := by
  cases h1 : e.default <;> cases h2 : e.deleted <;> simp [isOcc, h1, h2]

theorem isOcc_true_iff (e : HashElement K V) :
    isOcc e = true ↔ (e.default = false ∧ e.deleted = false) := by
  cases h1 : e.default <;> cases h2 : e.deleted <;> simp [isOcc, h1, h2]

theorem slotAt_resize (t : HashTable K V) (i : Nat) (h : i < t.size) :
    slotAt t.resize i = slotAt t i := by
  unfold slotAt HashTable.resize
  rw [List.getD_eq_getElem?_getD, List.getD_eq_getElem?_getD,
    List.getElem?_append]
  rw [if_pos (show i < t.kvs.length from h)]

theorem resize_size (t : HashTable K V) : t.resize.size = 2 * t.size := by
  unfold HashTable.resize HashTable.size
  simp [List.length_append]
  omega

theorem resize_len (t : HashTable K V) : t.resize.len = t.len := rfl

theorem occCount_resize (t : HashTable K V) :
    occCount t.resize = occCount t := by
  unfold occCount HashTable.resize
  simp only [List.countP_append]
  rw [countP_replicate_not isOcc t.size emptyElem (by rfl)]
  omega

theorem load_factor_gt_iff (t : HashTable K V) (h : 0 < t.size) :
    (t.load_factor > 7 / 10) ↔ 7 * t.size < 10 * t.len := by
  unfold HashTable.load_factor
  rw [gt_iff_lt, div_lt_div_iff₀ (by norm_num) (by exact_mod_cast h)]
  rw [mul_comm ((t.len : Rat)) 10]
  exact_mod_cast Iff.rfl

/-- `new()` is well formed. -/
theorem WF_new : WF (HashTable.new : HashTable K V) := by
  refine ⟨?_, ?_, ?_⟩
  · unfold occCount HashTable.new
    rw [countP_replicate_not isOcc INITIAL_CAPACITY emptyElem (by rfl)]
  · show 0 < (HashTable.new : HashTable K V).size
    unfold HashTable.new HashTable.size
    simp [INITIAL_CAPACITY]
  · show 4 ≤ (HashTable.new : HashTable K V).size
    unfold HashTable.new HashTable.size
    simp [INITIAL_CAPACITY]

theorem exists_stop_of_occ_lt (t : HashTable K V) (k : K) (pos : Nat)
    (hocc : occCount t < t.size) (hpos : pos < t.size) :
    ∃ j, j < t.size ∧ Stops k (slotAt t (probePos t pos j)) := by
  obtain ⟨i, hi, hfree⟩ :=
    countP_lt_length_exists isOcc t.kvs emptyElem hocc
  obtain ⟨m, hm, hpm⟩ := probePos_covers t pos i hpos hi
  refine ⟨m, hm, ?_⟩
  rw [hpm]
  have := (isOcc_false_iff (slotAt t i)).mp hfree
  rcases this with h | h
  · exact Or.inl h
  · exact Or.inr (Or.inl h)

/-!
## Well-formedness preservation and termination
-/

theorem insertLoop_some_spec (t : HashTable K V) (k : K) (v : V)
    {t' : HashTable K V} (pos fuel : Nat) (hpos : pos < t.size)
    (h : insertLoop t k v pos fuel = some t') :
    ∃ j, j < fuel ∧
      (∀ m, m < j → ¬ Stops k (slotAt t (probePos t pos m))) ∧
      Stops k (slotAt t (probePos t pos j)) ∧
      t' = insertApply t k v (scanHitAt t (probePos t pos j)) := by
  rw [insertLoop_eq_scan] at h
  obtain ⟨hit, hscan, happ⟩ := Option.map_eq_some'.mp h
  obtain ⟨j, hj, hbef, hstop, hhit⟩ := scan_some_spec t k fuel pos hit hpos hscan
  exact ⟨j, hj, hbef, hstop, by rw [← happ, hhit]⟩

theorem occCount_eq (t : HashTable K V) :
    occCount t = t.kvs.countP isOcc := rfl

theorem occCount_mk (l : List (HashElement K V)) (n : Nat) :
    occCount (⟨l, n⟩ : HashTable K V) = l.countP isOcc := rfl

theorem size_mk (l : List (HashElement K V)) (n : Nat) :
    (⟨l, n⟩ : HashTable K V).size = l.length := rfl

theorem WF_of_insertLoop (t1 : HashTable K V) {t' : HashTable K V}
    (k : K) (v : V) (pos : Nat) (hpos : pos < t1.size)
    (hlen : t1.len = occCount t1) (hsz : 4 ≤ t1.size)
    (hslack : t1.len + 1 < t1.size)
    (h : insertLoop t1 k v pos t1.size = some t') : WF t' := by
  obtain ⟨j, hj, hbef, hstop, happ⟩ :=
    insertLoop_some_spec t1 k v pos t1.size hpos h
  have hp : probePos t1 pos j < t1.size := probePos_lt t1 pos j (by omega)
  have hplen : probePos t1 pos j < t1.kvs.length := hp
  rw [occCount_eq] at hlen
  have hszlen : t1.size = t1.kvs.length := rfl
  by_cases hfree : (slotAt t1 (probePos t1 pos j)).default = true ∨
      (slotAt t1 (probePos t1 pos j)).deleted = true
  · have happ' : t' =
        ⟨t1.kvs.set (probePos t1 pos j) ⟨k, v, false, false⟩, t1.len + 1⟩ := by
      rw [happ]
      simp [scanHitAt, hfree, insertApply]
    have hcount := countP_set isOcc t1.kvs (probePos t1 pos j)
      ⟨k, v, false, false⟩ emptyElem hplen
    have hold : isOcc (t1.kvs.getD (probePos t1 pos j) emptyElem) = false :=
      (isOcc_false_iff _).mpr hfree
    have hnew : isOcc (⟨k, v, false, false⟩ : HashElement K V) = true := rfl
    rw [hold, hnew] at hcount
    simp only [Bool.false_eq_true, if_false, if_true] at hcount
    refine ⟨?_, ?_, ?_⟩
    · rw [happ', occCount_mk]
      show t1.len + 1 = _
      omega
    · rw [happ', size_mk, List.length_set]
      show t1.len + 1 < _
      omega
    · rw [happ', size_mk, List.length_set]
      omega
  · have hmatch : (slotAt t1 (probePos t1 pos j)).key = k := by
      rcases hstop with hs | hs | hs
      · exact (hfree (Or.inl hs)).elim
      · exact (hfree (Or.inr hs)).elim
      · exact hs
    have happ' : t' =
        ⟨t1.kvs.set (probePos t1 pos j)
          ⟨(slotAt t1 (probePos t1 pos j)).key, v,
           (slotAt t1 (probePos t1 pos j)).default,
           (slotAt t1 (probePos t1 pos j)).deleted⟩, t1.len⟩ := by
      rw [happ]
      simp [scanHitAt, hfree, insertApply]
    have hdfalse : (slotAt t1 (probePos t1 pos j)).default = false := by
      rcases h1 : (slotAt t1 (probePos t1 pos j)).default with _ | _
      · rfl
      · exact (hfree (Or.inl h1)).elim
    have hdelfalse : (slotAt t1 (probePos t1 pos j)).deleted = false := by
      rcases h1 : (slotAt t1 (probePos t1 pos j)).deleted with _ | _
      · rfl
      · exact (hfree (Or.inr h1)).elim
    have hold : isOcc (t1.kvs.getD (probePos t1 pos j) emptyElem) = true :=
      (isOcc_true_iff _).mpr ⟨hdfalse, hdelfalse⟩
    have hnew : isOcc (⟨(slotAt t1 (probePos t1 pos j)).key, v,
        (slotAt t1 (probePos t1 pos j)).default,
        (slotAt t1 (probePos t1 pos j)).deleted⟩ : HashElement K V) = true := by
      rw [isOcc_true_iff]
      exact ⟨hdfalse, hdelfalse⟩
    have hcount := countP_set isOcc t1.kvs (probePos t1 pos j)
      ⟨(slotAt t1 (probePos t1 pos j)).key, v,
       (slotAt t1 (probePos t1 pos j)).default,
       (slotAt t1 (probePos t1 pos j)).deleted⟩ emptyElem hplen
    rw [hold, hnew] at hcount
    simp only [if_true] at hcount
    refine ⟨?_, ?_, ?_⟩
    · rw [happ', occCount_mk]
      show t1.len = _
      omega
    · rw [happ', size_mk, List.length_set]
      show t1.len < _
      omega
    · rw [happ', size_mk, List.length_set]
      omega

theorem WF_insert (hF : K → Nat) {t t' : HashTable K V} {k : K} {v : V}
    (hWF : WF t) (h : t.insert hF k v = some t') : WF t' := by
  obtain ⟨hlen, hlt, hsz⟩ := hWF
  by_cases hres : 10 * t.len > 7 * t.size
  · have h' : insertLoop t.resize k v (hF k % t.resize.size) t.resize.size
        = some t' := by
      simpa [HashTable.insert, hres] using h
    have hpos : hF k % t.resize.size < t.resize.size :=
      Nat.mod_lt _ (by rw [resize_size]; omega)
    refine WF_of_insertLoop t.resize k v _ hpos ?_ ?_ ?_ h'
    · rw [resize_len, occCount_resize]
      exact hlen
    · rw [resize_size]
      omega
    · rw [resize_size, resize_len]
      omega
  · have h' : insertLoop t k v (hF k % t.size) t.size = some t' := by
      simpa [HashTable.insert, hres] using h
    have hpos : hF k % t.size < t.size := Nat.mod_lt _ (by omega)
    exact WF_of_insertLoop t k v _ hpos hlen hsz (by omega) h'

theorem removeLoop_some_spec (t : HashTable K V) (k : K)
    {r : Option V} {t' : HashTable K V} (pos fuel : Nat) (hpos : pos < t.size)
    (h : removeLoop t k pos fuel = some (r, t')) :
    ∃ j, j < fuel ∧
      (∀ m, m < j → ¬ Stops k (slotAt t (probePos t pos m))) ∧
      Stops k (slotAt t (probePos t pos j)) ∧
      (r, t') = removeApply t (scanHitAt t (probePos t pos j)) := by
  rw [removeLoop_eq_scan t k fuel pos hpos] at h
  obtain ⟨hit, hscan, happ⟩ := Option.map_eq_some'.mp h
  obtain ⟨j, hj, hbef, hstop, hhit⟩ := scan_some_spec t k fuel pos hit hpos hscan
  exact ⟨j, hj, hbef, hstop, by rw [← happ, hhit]⟩

theorem WF_remove (hF : K → Nat) {t t' : HashTable K V} {k : K} {r : Option V}
    (hWF : WF t) (h : t.remove hF k = some (r, t')) : WF t' := by
  obtain ⟨hlen, hlt, hsz⟩ := hWF
  have hpos : hF k % t.size < t.size := Nat.mod_lt _ (by omega)
  obtain ⟨j, hj, hbef, hstop, happ⟩ :=
    removeLoop_some_spec t k (hF k % t.size) t.size hpos h
  have hp : probePos t (hF k % t.size) j < t.size :=
    probePos_lt t _ j (by omega)
  have hplen : probePos t (hF k % t.size) j < t.kvs.length := hp
  rw [occCount_eq] at hlen
  by_cases hfree : (slotAt t (probePos t (hF k % t.size) j)).default = true ∨
      (slotAt t (probePos t (hF k % t.size) j)).deleted = true
  · have hrt : (r, t') = (none, t) := by
      rw [happ]
      simp [scanHitAt, hfree, removeApply]
    have ht' : t' = t := congrArg Prod.snd hrt
    rw [ht']
    exact ⟨by rw [occCount_eq]; exact hlen, hlt, hsz⟩
  · have hdfalse : (slotAt t (probePos t (hF k % t.size) j)).default = false := by
      rcases h1 : (slotAt t (probePos t (hF k % t.size) j)).default with _ | _
      · rfl
      · exact (hfree (Or.inl h1)).elim
    have hdelfalse : (slotAt t (probePos t (hF k % t.size) j)).deleted = false := by
      rcases h1 : (slotAt t (probePos t (hF k % t.size) j)).deleted with _ | _
      · rfl
      · exact (hfree (Or.inr h1)).elim
    have hrt : (r, t') =
        (some (slotAt t (probePos t (hF k % t.size) j)).value,
         ⟨t.kvs.set (probePos t (hF k % t.size) j)
           ⟨(slotAt t (probePos t (hF k % t.size) j)).key,
            (slotAt t (probePos t (hF k % t.size) j)).value,
            (slotAt t (probePos t (hF k % t.size) j)).default, true⟩,
          t.len - 1⟩) := by
      rw [happ]
      simp [scanHitAt, hfree, removeApply]
    have ht' := congrArg Prod.snd hrt
    simp only [] at ht'
    have hold : isOcc (t.kvs.getD (probePos t (hF k % t.size) j) emptyElem)
        = true := (isOcc_true_iff _).mpr ⟨hdfalse, hdelfalse⟩
    have hnew : isOcc (⟨(slotAt t (probePos t (hF k % t.size) j)).key,
        (slotAt t (probePos t (hF k % t.size) j)).value,
        (slotAt t (probePos t (hF k % t.size) j)).default, true⟩
          : HashElement K V) = false :=
      (isOcc_false_iff _).mpr (Or.inr rfl)
    have hcount := countP_set isOcc t.kvs (probePos t (hF k % t.size) j)
      ⟨(slotAt t (probePos t (hF k % t.size) j)).key,
       (slotAt t (probePos t (hF k % t.size) j)).value,
       (slotAt t (probePos t (hF k % t.size) j)).default, true⟩ emptyElem hplen
    rw [hold, hnew] at hcount
    simp only [Bool.false_eq_true, if_false, if_true] at hcount
    have hocc1 : 1 ≤ t.kvs.countP isOcc :=
      countP_pos_of_getD isOcc t.kvs _ emptyElem hplen hold
    have hsizeeq : t.size = t.kvs.length := rfl
    have hlenset : (t.kvs.set (probePos t (hF k % t.size) j)
        ⟨(slotAt t (probePos t (hF k % t.size) j)).key,
         (slotAt t (probePos t (hF k % t.size) j)).value,
         (slotAt t (probePos t (hF k % t.size) j)).default, true⟩).length
        = t.kvs.length := by
      simp
    rw [ht']
    refine ⟨?_, ?_, ?_⟩
    · show t.len - 1 = List.countP isOcc (t.kvs.set (probePos t (hF k % t.size) j)
        ⟨(slotAt t (probePos t (hF k % t.size) j)).key,
         (slotAt t (probePos t (hF k % t.size) j)).value,
         (slotAt t (probePos t (hF k % t.size) j)).default, true⟩)
      omega
    · show t.len - 1 < (t.kvs.set (probePos t (hF k % t.size) j)
        ⟨(slotAt t (probePos t (hF k % t.size) j)).key,
         (slotAt t (probePos t (hF k % t.size) j)).value,
         (slotAt t (probePos t (hF k % t.size) j)).default, true⟩).length
      omega
    · show 4 ≤ (t.kvs.set (probePos t (hF k % t.size) j)
        ⟨(slotAt t (probePos t (hF k % t.size) j)).key,
         (slotAt t (probePos t (hF k % t.size) j)).value,
         (slotAt t (probePos t (hF k % t.size) j)).default, true⟩).length
      omega

theorem scanLoop_isSome_of_WF (t : HashTable K V) (k : K) (pos : Nat)
    (hpos : pos < t.size) (hocc : occCount t < t.size) :
    (scanLoop t k pos t.size).isSome := by
  obtain ⟨j, hj, hstop⟩ := exists_stop_of_occ_lt t k pos hocc hpos
  exact scan_isSome_of_stop t k t.size pos hpos ⟨j, hj, hstop⟩

theorem get_isSome (hF : K → Nat) (t : HashTable K V) (k : K)
    (hWF : WF t) : (t.get hF k).isSome := by
  obtain ⟨hlen, hlt, hsz⟩ := hWF
  have hpos : hF k % t.size < t.size := Nat.mod_lt _ (by omega)
  have hocc : occCount t < t.size := by omega
  have hscan := scanLoop_isSome_of_WF t k _ hpos hocc
  obtain ⟨hit, hh⟩ := Option.isSome_iff_exists.mp hscan
  unfold HashTable.get
  rw [getLoop_eq_scan, hh]
  rfl

theorem get_mut_isSome (hF : K → Nat) (t : HashTable K V) (k : K)
    (hWF : WF t) : (t.get_mut hF k).isSome := by
  obtain ⟨hlen, hlt, hsz⟩ := hWF
  have hpos : hF k % t.size < t.size := Nat.mod_lt _ (by omega)
  have hocc : occCount t < t.size := by omega
  have hscan := scanLoop_isSome_of_WF t k _ hpos hocc
  obtain ⟨hit, hh⟩ := Option.isSome_iff_exists.mp hscan
  unfold HashTable.get_mut
  rw [getMutLoop_eq_scan, hh]
  rfl

theorem remove_isSome (hF : K → Nat) (t : HashTable K V) (k : K)
    (hWF : WF t) : (t.remove hF k).isSome := by
  obtain ⟨hlen, hlt, hsz⟩ := hWF
  have hpos : hF k % t.size < t.size := Nat.mod_lt _ (by omega)
  have hocc : occCount t < t.size := by omega
  have hscan := scanLoop_isSome_of_WF t k _ hpos hocc
  obtain ⟨hit, hh⟩ := Option.isSome_iff_exists.mp hscan
  unfold HashTable.remove
  rw [removeLoop_eq_scan t k t.size _ hpos, hh]
  rfl

theorem insert_isSome (hF : K → Nat) (t : HashTable K V) (k : K) (v : V)
    (hWF : WF t) : (t.insert hF k v).isSome := by
  obtain ⟨hlen, hlt, hsz⟩ := hWF
  by_cases hres : 10 * t.len > 7 * t.size
  · have hpos : hF k % t.resize.size < t.resize.size :=
      Nat.mod_lt _ (by rw [resize_size]; omega)
    have hocc : occCount t.resize < t.resize.size := by
      rw [occCount_resize, resize_size]
      omega
    have hscan := scanLoop_isSome_of_WF t.resize k _ hpos hocc
    obtain ⟨hit, hh⟩ := Option.isSome_iff_exists.mp hscan
    have : t.insert hF k v =
        insertLoop t.resize k v (hF k % t.resize.size) t.resize.size := by
      simp [HashTable.insert, hres]
    rw [this, insertLoop_eq_scan, hh]
    rfl
  · have hpos : hF k % t.size < t.size := Nat.mod_lt _ (by omega)
    have hocc : occCount t < t.size := by omega
    have hscan := scanLoop_isSome_of_WF t k _ hpos hocc
    obtain ⟨hit, hh⟩ := Option.isSome_iff_exists.mp hscan
    have : t.insert hF k v = insertLoop t k v (hF k % t.size) t.size := by
      simp [HashTable.insert, hres]
    rw [this, insertLoop_eq_scan, hh]
    rfl

theorem WF_insertAll (hF : K → Nat) (ps : List (K × V)) :
    ∀ t t' : HashTable K V, WF t → insertAll hF ps t = some t' → WF t' := by
  induction ps with
  | nil =>
    intro t t' hWF h
    simp [insertAll] at h
    rwa [← h]
  | cons p rest ih =>
    intro t t' hWF h
    obtain ⟨k, v⟩ := p
    unfold insertAll at h
    cases hins : t.insert hF k v with
    | none =>
      rw [hins] at h
      simp at h
    | some tm =>
      rw [hins] at h
      exact ih tm t' (WF_insert hF hWF hins) h

theorem WF_fromList (hF : K → Nat) (ps : List (K × V)) (t : HashTable K V)
    (h : HashTable.fromList hF ps = some t) : WF t :=
  WF_insertAll hF ps HashTable.new t WF_new h

theorem reachable_WF (hF : K → Nat) {t : HashTable K V}
    (h : Reachable hF t) : WF t := by
  induction h with
  | new => exact WF_new
  | insert _ hi ih => exact WF_insert hF ih hi
  | remove _ hre ih => exact WF_remove hF ih hre
  | ofList hl => exact WF_fromList hF _ _ hl

/-!
## Hash function versus the SDBM specification
-/

theorem hashStep_lt (h b : Nat) : hashStep h b < W := by
  show (((b + (h <<< 6) % W) % W + (h <<< 16) % W) % W + (W - h % W)) % W < W
  exact Nat.mod_lt _ (by norm_num [W])

theorem natCast_mod_W (a : Nat) : ((a % W : Nat) : ZMod W) = (a : ZMod W) := by
  conv_rhs => rw [← Nat.mod_add_div a W]
  push_cast
  simp

theorem hashStep_cast (h b : Nat) :
    ((hashStep h b : Nat) : ZMod W) =
      (b : ZMod W) + (h : ZMod W) * 2 ^ 6 + (h : ZMod W) * 2 ^ 16 - (h : ZMod W) := by
  have hW : 0 < W := by norm_num [W]
  have hle : h % W ≤ W := Nat.le_of_lt (Nat.mod_lt _ hW)
  show (((((b + (h <<< 6) % W) % W + (h <<< 16) % W) % W + (W - h % W)) % W : Nat)
      : ZMod W) = _
  simp only [natCast_mod_W, Nat.cast_add, Nat.cast_sub hle, ZMod.natCast_self,
    Nat.shiftLeft_eq]
  push_cast
  ring

theorem hash_spec_aux (bytes : List Nat) :
    ∀ h : Nat, h < W →
      ((bytes.foldl hashStep h : Nat) : ZMod W) =
        bytes.foldl sdbmSpecStep (h : ZMod W) ∧
      bytes.foldl hashStep h < W := by
  induction bytes with
  | nil => exact fun h hh => ⟨rfl, hh⟩
  | cons b rest ih =>
    intro h hh
    simp only [List.foldl_cons]
    obtain ⟨h1, h2⟩ := ih (hashStep h b) (hashStep_lt h b)
    refine ⟨?_, h2⟩
    rw [h1, hashStep_cast]
    rfl

/-!
## Characterizations of terminating lookups
-/

theorem size_pos_of_get_some (hF : K → Nat) (t : HashTable K V) (k : K)
    {o : Option V} (h : t.get hF k = some o) : 0 < t.size := by
  rcases Nat.eq_zero_or_pos t.size with hs | hs
  · unfold HashTable.get at h
    rw [hs] at h
    simp [getLoop] at h
  · exact hs

theorem get_found_spec (hF : K → Nat) (t : HashTable K V) (k : K) (v : V)
    (h : t.get hF k = some (some v)) :
    0 < t.size ∧ ∃ j, j < t.size ∧
      (∀ m, m < j → ¬ Stops k (slotAt t (probePos t (hF k % t.size) m))) ∧
      (slotAt t (probePos t (hF k % t.size) j)).default = false ∧
      (slotAt t (probePos t (hF k % t.size) j)).deleted = false ∧
      (slotAt t (probePos t (hF k % t.size) j)).key = k ∧
      (slotAt t (probePos t (hF k % t.size) j)).value = v := by
  have hs := size_pos_of_get_some hF t k h
  refine ⟨hs, ?_⟩
  have hpos : hF k % t.size < t.size := Nat.mod_lt _ hs
  unfold HashTable.get at h
  rw [getLoop_eq_scan] at h
  obtain ⟨hit, hscan, happ⟩ := Option.map_eq_some'.mp h
  obtain ⟨j, hj, hbef, hstop, hhit⟩ :=
    scan_some_spec t k t.size _ hit hpos hscan
  refine ⟨j, hj, hbef, ?_⟩
  by_cases hfree : (slotAt t (probePos t (hF k % t.size) j)).default = true ∨
      (slotAt t (probePos t (hF k % t.size) j)).deleted = true
  · rw [hhit] at happ
    simp [scanHitAt, hfree, getApply] at happ
  · have hdfalse : (slotAt t (probePos t (hF k % t.size) j)).default = false := by
      rcases h1 : (slotAt t (probePos t (hF k % t.size) j)).default with _ | _
      · rfl
      · exact (hfree (Or.inl h1)).elim
    have hdelfalse : (slotAt t (probePos t (hF k % t.size) j)).deleted = false := by
      rcases h1 : (slotAt t (probePos t (hF k % t.size) j)).deleted with _ | _
      · rfl
      · exact (hfree (Or.inr h1)).elim
    have hkey : (slotAt t (probePos t (hF k % t.size) j)).key = k := by
      rcases hstop with hst | hst | hst
      · exact (hfree (Or.inl hst)).elim
      · exact (hfree (Or.inr hst)).elim
      · exact hst
    refine ⟨hdfalse, hdelfalse, hkey, ?_⟩
    rw [hhit] at happ
    simp [scanHitAt, hfree, getApply] at happ
    exact happ

theorem get_none_spec (hF : K → Nat) (t : HashTable K V) (k : K)
    (h : t.get hF k = some none) :
    0 < t.size ∧ ∃ j, j < t.size ∧
      (∀ m, m < j → ¬ Stops k (slotAt t (probePos t (hF k % t.size) m))) ∧
      ((slotAt t (probePos t (hF k % t.size) j)).default = true ∨
       (slotAt t (probePos t (hF k % t.size) j)).deleted = true) := by
  have hs := size_pos_of_get_some hF t k h
  refine ⟨hs, ?_⟩
  have hpos : hF k % t.size < t.size := Nat.mod_lt _ hs
  unfold HashTable.get at h
  rw [getLoop_eq_scan] at h
  obtain ⟨hit, hscan, happ⟩ := Option.map_eq_some'.mp h
  obtain ⟨j, hj, hbef, hstop, hhit⟩ :=
    scan_some_spec t k t.size _ hit hpos hscan
  refine ⟨j, hj, hbef, ?_⟩
  by_cases hfree : (slotAt t (probePos t (hF k % t.size) j)).default = true ∨
      (slotAt t (probePos t (hF k % t.size) j)).deleted = true
  · exact hfree
  · rw [hhit] at happ
    simp [scanHitAt, hfree, getApply] at happ

/-!
## Concrete instances

Keys are their canonical serialized bytes (`bincode` serializes an `i32` to
four little-endian bytes).  `keyA` and `keyB` are the serializations of the
`i32` values `0` and `64`; both digests are `0` modulo the initial capacity
`64`, so the two keys collide.  `keyStar` serializes `2`; its digest is `62`
modulo `64` but `126` modulo `128`.
-/

def keyA : List Nat := [0, 0, 0, 0]

def keyB : List Nat := [64, 0, 0, 0]

def keyStar : List Nat := [2, 0, 0, 0]

def t0 : HashTable (List Nat) Nat := HashTable.new

def t1 : HashTable (List Nat) Nat := (t0.insert hash keyA 1).getD t0

def tB : HashTable (List Nat) Nat := (t1.insert hash keyB 2).getD t1

def tC : HashTable (List Nat) Nat := ((tB.remove hash keyA).getD (none, tB)).2

def tD : HashTable (List Nat) Nat := (tC.insert hash keyB 3).getD tC

def tR : HashTable (List Nat) Nat := ((t1.remove hash keyA).getD (none, t1)).2

def tX : HashTable (List Nat) Nat := (tR.insert hash keyB 10).getD tR

def seq45 : List (List Nat × Nat) :=
  (List.range 45).map (fun i => ([i, 0, 0, 0], i))

def t45 : HashTable (List Nat) Nat :=
  (HashTable.fromList hash seq45).getD HashTable.new


/-!
## Small helpers for modified tables
-/

theorem probePos_congr (t t' : HashTable K V) (pos m : Nat)
    (h : t'.size = t.size) : probePos t' pos m = probePos t pos m := by
  unfold probePos
  rw [h]

theorem slotAt_set_self (t : HashTable K V) (p : Nat) (e : HashElement K V)
    (n : Nat) (hp : p < t.size) :
    slotAt (⟨t.kvs.set p e, n⟩ : HashTable K V) p = e :=
  getD_set_self t.kvs p e emptyElem hp

theorem slotAt_set_other (t : HashTable K V) (p q : Nat) (e : HashElement K V)
    (n : Nat) (h : p ≠ q) :
    slotAt (⟨t.kvs.set p e, n⟩ : HashTable K V) q = slotAt t q :=
  getD_set_other t.kvs p q e emptyElem h

theorem size_set (t : HashTable K V) (p : Nat) (e : HashElement K V)
    (n : Nat) : (⟨t.kvs.set p e, n⟩ : HashTable K V).size = t.size := by
  show (t.kvs.set p e).length = t.kvs.length
  exact List.length_set t.kvs p e

/-!
## Claims
-/

/-- C8: the hash function equals the SDBM byte-folding reference.  Folding
the key's serialized bytes through the implementation's wrapping recurrence
(`hash`) gives exactly the spec's recurrence
`acc = byte + (acc << 6) + (acc << 16) - acc` computed in the wrapping ring
`ZMod (2 ^ 64)` (`sdbmSpec`), and the digest always stays below `2 ^ 64`, so
no step can overflow or panic.  `hash` is a pure function of the byte list,
hence trivially deterministic: equal keys give equal digests. -/
theorem hash_eq_sdbmSpec : ∀ bytes : List Nat,
    (((hash : List Nat → Nat) bytes : Nat) : ZMod W) = sdbmSpec bytes ∧
    (hash : List Nat → Nat) bytes < W := by
  intro bytes
  obtain ⟨h1, h2⟩ := hash_spec_aux bytes 0 (by norm_num [W])
  rw [show ((0 : Nat) : ZMod W) = 0 from by norm_num] at h1
  exact ⟨h1, h2⟩

/-- C7: removing an absent key (one the lookup scan reports absent) returns
the absence signal and returns the table completely unchanged — same `len`,
same `size`, every slot identical. -/
theorem remove_absent_noop (hF : K → Nat) (t : HashTable K V) (k : K)
    (h : t.get hF k = some none) : t.remove hF k = some (none, t) := by
  obtain ⟨hs, j, hj, hbef, hfree⟩ := get_none_spec hF t k h
  have hpos : hF k % t.size < t.size := Nat.mod_lt _ hs
  have hstop : Stops k (slotAt t (probePos t (hF k % t.size) j)) := by
    rcases hfree with h1 | h1
    · exact Or.inl h1
    · exact Or.inr (Or.inl h1)
  unfold HashTable.remove
  rw [removeLoop_eq_scan t k t.size _ hpos]
  rw [scan_first t k j t.size _ hpos hj hbef hstop]
  simp only [Option.map_some', scanHitAt, if_pos hfree]
  rfl

/-- Witness for C7 at a concrete input: removing `keyB` from the fresh table
`t0` (where it is absent) reports absence and leaves `t0` unchanged. -/
theorem remove_absent_noop_witness : t0.remove hash keyB = some (none, t0) :=
  remove_absent_noop hash t0 keyB (by decide)

theorem get_none_of_first_free (hF : K → Nat) (t2 : HashTable K V) (k : K)
    (j : Nat) (hs : 0 < t2.size) (hj : j < t2.size)
    (hbef : ∀ m, m < j → ¬ Stops k (slotAt t2 (probePos t2 (hF k % t2.size) m)))
    (hfree : (slotAt t2 (probePos t2 (hF k % t2.size) j)).default = true ∨
             (slotAt t2 (probePos t2 (hF k % t2.size) j)).deleted = true) :
    t2.get hF k = some none := by
  have hpos : hF k % t2.size < t2.size := Nat.mod_lt _ hs
  have hstop : Stops k (slotAt t2 (probePos t2 (hF k % t2.size) j)) := by
    rcases hfree with h1 | h1
    · exact Or.inl h1
    · exact Or.inr (Or.inl h1)
  unfold HashTable.get
  rw [getLoop_eq_scan, scan_first t2 k j t2.size _ hpos hj hbef hstop]
  simp only [Option.map_some', scanHitAt, if_pos hfree]
  rfl

theorem get_some_of_first_found (hF : K → Nat) (t2 : HashTable K V) (k : K)
    (j : Nat) (hs : 0 < t2.size) (hj : j < t2.size)
    (hbef : ∀ m, m < j → ¬ Stops k (slotAt t2 (probePos t2 (hF k % t2.size) m)))
    (hdf : (slotAt t2 (probePos t2 (hF k % t2.size) j)).default = false)
    (hdel : (slotAt t2 (probePos t2 (hF k % t2.size) j)).deleted = false)
    (hkey : (slotAt t2 (probePos t2 (hF k % t2.size) j)).key = k) :
    t2.get hF k =
      some (some (slotAt t2 (probePos t2 (hF k % t2.size) j)).value) := by
  have hpos : hF k % t2.size < t2.size := Nat.mod_lt _ hs
  have hstop : Stops k (slotAt t2 (probePos t2 (hF k % t2.size) j)) :=
    Or.inr (Or.inr hkey)
  have hnotfree : ¬ ((slotAt t2 (probePos t2 (hF k % t2.size) j)).default = true ∨
      (slotAt t2 (probePos t2 (hF k % t2.size) j)).deleted = true) := by
    rw [hdf, hdel]
    simp
  unfold HashTable.get
  rw [getLoop_eq_scan, scan_first t2 k j t2.size _ hpos hj hbef hstop]
  simp only [Option.map_some', scanHitAt, if_neg hnotfree]
  rfl

/-- Supporting lemma: removing a key that the lookup scan actually finds
with value `v` (the `get = some (some v)` hypothesis — this is strictly
stronger than the key merely occupying a slot, because a tombstone earlier
in the probe chain hides an occupied slot from every scan) returns `v`,
turns the matched slot from `Occupied` into `Tombstoned` (the `deleted`
flag is set, the `default` flag stays `false`, so the slot is not `Empty`),
decrements `len` by exactly one, leaves the capacity unchanged, and a
subsequent `get` of the key reports absence.  This is the behaviour claim
C6 describes, but C6 quantifies over every state in which the key is
present, and for keys shadowed by a tombstone the code does none of this —
see `remove_present_behind_tombstone_noop`. -/
theorem remove_present_spec (hF : K → Nat) (t : HashTable K V) (k : K) (v : V)
    (hWF : WF t) (h : t.get hF k = some (some v)) :
    ∃ p t', t.remove hF k = some (some v, t') ∧
      p < t.size ∧
      (slotAt t p).key = k ∧ (slotAt t p).default = false ∧
      (slotAt t p).deleted = false ∧ (slotAt t p).value = v ∧
      (slotAt t' p).key = k ∧ (slotAt t' p).default = false ∧
      (slotAt t' p).deleted = true ∧
      t'.size = t.size ∧ t'.len + 1 = t.len ∧
      t'.get hF k = some none := by
  obtain ⟨hs, j, hj, hbef, hdf, hdel, hkey, hval⟩ := get_found_spec hF t k v h
  have hpos : hF k % t.size < t.size := Nat.mod_lt _ hs
  set p0 := probePos t (hF k % t.size) j with hp0
  have hp : p0 < t.size := probePos_lt t _ j hs
  have hplen : p0 < t.kvs.length := hp
  have hstop : Stops k (slotAt t p0) := Or.inr (Or.inr hkey)
  have hnotfree : ¬ ((slotAt t p0).default = true ∨ (slotAt t p0).deleted = true) := by
    rw [hdf, hdel]
    simp
  set t2 := (⟨t.kvs.set p0 ⟨(slotAt t p0).key, (slotAt t p0).value,
      (slotAt t p0).default, true⟩, t.len - 1⟩ : HashTable K V) with ht2
  have hremove : t.remove hF k = some (some (slotAt t p0).value, t2) := by
    unfold HashTable.remove
    rw [removeLoop_eq_scan t k t.size _ hpos]
    rw [scan_first t k j t.size _ hpos hj hbef hstop]
    simp only [Option.map_some', scanHitAt, if_neg hnotfree]
    rfl
  have hocc : isOcc (t.kvs.getD p0 emptyElem) = true :=
    (isOcc_true_iff _).mpr ⟨hdf, hdel⟩
  have hlen1 : 1 ≤ t.len := by
    have hpos1 := countP_pos_of_getD isOcc t.kvs p0 emptyElem hplen hocc
    have hlen := hWF.1
    rw [occCount_eq] at hlen
    omega
  have hsz2 : t2.size = t.size := by
    rw [ht2]
    exact size_set t p0 _ _
  have hslotp : slotAt t2 p0 = ⟨(slotAt t p0).key, (slotAt t p0).value,
      (slotAt t p0).default, true⟩ := by
    rw [ht2]
    exact slotAt_set_self t p0 _ _ hp
  have hslotq : ∀ q, p0 ≠ q → slotAt t2 q = slotAt t q := by
    intro q hq
    rw [ht2]
    exact slotAt_set_other t p0 q _ _ hq
  have hget2 : t2.get hF k = some none := by
    apply get_none_of_first_free hF t2 k j (by omega) (by omega)
    · intro m hm
      rw [probePos_congr t t2 _ _ hsz2, hsz2]
      have hne : p0 ≠ probePos t (hF k % t.size) m := by
        intro heq
        have := probePos_inj t (hF k % t.size) j m hj (by omega)
          (by rw [← hp0, heq])
        omega
      rw [hslotq _ hne]
      exact hbef m hm
    · rw [probePos_congr t t2 _ _ hsz2, hsz2, ← hp0, hslotp]
      right
      rfl
  refine ⟨p0, t2, ?_, hp, hkey, hdf, hdel, hval, ?_, ?_, ?_, hsz2, ?_, hget2⟩
  · rw [hremove, hval]
  · rw [hslotp]
    exact hkey
  · rw [hslotp]
    exact hdf
  · rw [hslotp]
  · show t.len - 1 + 1 = t.len
    omega

/-- Instantiation of `remove_present_spec` at a concrete input: removing
`keyA` from the one-entry table `t1` returns its value `1`, tombstones slot
`0`, shrinks `len` from `1` to `0`, and a following `get` reports
absence. -/
theorem remove_present_spec_witness :
    ∃ p t', t1.remove hash keyA = some (some 1, t') ∧
      p < t1.size ∧
      (slotAt t1 p).key = keyA ∧ (slotAt t1 p).default = false ∧
      (slotAt t1 p).deleted = false ∧ (slotAt t1 p).value = 1 ∧
      (slotAt t' p).key = keyA ∧ (slotAt t' p).default = false ∧
      (slotAt t' p).deleted = true ∧
      t'.size = t1.size ∧ t'.len + 1 = t1.len ∧
      t'.get hash keyA = some none :=
  remove_present_spec hash t1 keyA 1 (by decide) (by decide)

/-- C4 (amended): when the lookup probe scan actually finds key `k` —
`get k` returns its value, which in particular requires that no tombstone
earlier in `k`'s probe chain shadows it — and the insert does not first
trigger a resize (`10 * len ≤ 7 * size`, i.e. the load factor is at most
0.7), `insert(k, v2)` updates the entry in place: `len` and `size` are
unchanged and a subsequent `get k` returns `v2`.  Both restrictions are
necessary: if `k` is present only behind a tombstone, or if the insert
first doubles the capacity and the probe restarts elsewhere, the insert
writes a second entry and increments `len` instead — see the
counterexample `insert_present_not_in_place`. -/
theorem insert_present_no_resize (hF : K → Nat) (t : HashTable K V) (k : K)
    (v1 v2 : V) (hload : 10 * t.len ≤ 7 * t.size)
    (h : t.get hF k = some (some v1)) :
    ∃ t', t.insert hF k v2 = some t' ∧ t'.len = t.len ∧ t'.size = t.size ∧
      t'.get hF k = some (some v2) := by
  obtain ⟨hs, j, hj, hbef, hdf, hdel, hkey, hval⟩ := get_found_spec hF t k v1 h
  have hpos : hF k % t.size < t.size := Nat.mod_lt _ hs
  set p0 := probePos t (hF k % t.size) j with hp0
  have hp : p0 < t.size := probePos_lt t _ j hs
  have hstop : Stops k (slotAt t p0) := Or.inr (Or.inr hkey)
  have hnotfree : ¬ ((slotAt t p0).default = true ∨ (slotAt t p0).deleted = true) := by
    rw [hdf, hdel]
    simp
  have hnores : ¬ (10 * t.len > 7 * t.size) := by omega
  set t2 := (⟨t.kvs.set p0 ⟨(slotAt t p0).key, v2, (slotAt t p0).default,
      (slotAt t p0).deleted⟩, t.len⟩ : HashTable K V) with ht2
  have hins : t.insert hF k v2 = some t2 := by
    unfold HashTable.insert
    simp only [if_neg hnores]
    rw [insertLoop_eq_scan, scan_first t k j t.size _ hpos hj hbef hstop]
    simp only [Option.map_some', scanHitAt, if_neg hnotfree]
    rfl
  have hsz2 : t2.size = t.size := by
    rw [ht2]
    exact size_set t p0 _ _
  have hslotp : slotAt t2 p0 = ⟨(slotAt t p0).key, v2, (slotAt t p0).default,
      (slotAt t p0).deleted⟩ := by
    rw [ht2]
    exact slotAt_set_self t p0 _ _ hp
  have hslotq : ∀ q, p0 ≠ q → slotAt t2 q = slotAt t q := by
    intro q hq
    rw [ht2]
    exact slotAt_set_other t p0 q _ _ hq
  have hbef2 : ∀ m, m < j →
      ¬ Stops k (slotAt t2 (probePos t2 (hF k % t2.size) m)) := by
    intro m hm
    rw [probePos_congr t t2 _ _ hsz2, hsz2]
    have hne : p0 ≠ probePos t (hF k % t.size) m := by
      intro heq
      have := probePos_inj t (hF k % t.size) j m hj (by omega)
        (by rw [← hp0, heq])
      omega
    rw [hslotq _ hne]
    exact hbef m hm
  have hpp : probePos t2 (hF k % t2.size) j = p0 := by
    rw [probePos_congr t t2 _ _ hsz2, hsz2, ← hp0]
  have hget2 : t2.get hF k = some (some v2) := by
    have := get_some_of_first_found hF t2 k j (by omega) (by omega) hbef2
      (by rw [hpp, hslotp]; exact hdf)
      (by rw [hpp, hslotp]; exact hdel)
      (by rw [hpp, hslotp]; exact hkey)
    rw [this, hpp, hslotp]
  refine ⟨t2, hins, ?_, hsz2, hget2⟩
  rw [ht2]

/-- Witness for the amended C4 at a concrete input: re-inserting `keyA` with
value `2` into the one-entry table `t1` (load factor `1/64`) keeps `len` and
`size` and makes `get keyA` return `2`. -/
theorem insert_present_no_resize_witness :
    ∃ t', t1.insert hash keyA 2 = some t' ∧ t'.len = t1.len ∧
      t'.size = t1.size ∧ t'.get hash keyA = some (some 2) :=
  insert_present_no_resize hash t1 keyA 1 2 (by decide) (by decide)

/-- C4 counterexample: the claim as stated (for every state where `k` is
present, `insert(k, v2)` updates in place with `len` unchanged) is false in
two independent ways.  First, without any resize: in the reachable table
`tC` (load factor `1/64`), `keyB` is present — slot `1` is `Occupied` with
`keyB` — but shadowed by the tombstone in slot `0`, and `insert keyB 3`
writes a second entry, taking `len` from `1` to `2`.  Second, through a
resize: in the reachable table `t45`, `keyStar` is present with value `2`
and `len = 45`; inserting it again first doubles the capacity (load factor
`45/64 > 0.7`), the new probe start `hash(keyStar) % 128 = 126` lands in
the freshly appended empty region, and the insert writes a duplicate
entry: `len` becomes `46`. -/
theorem insert_present_not_in_place :
    ((slotAt tC 1).key = keyB ∧ (slotAt tC 1).default = false ∧
      (slotAt tC 1).deleted = false ∧ tC.len = 1 ∧
      10 * tC.len ≤ 7 * tC.size ∧
      (tC.insert hash keyB 3).map HashTable.len = some 2) ∧
    (t45.get hash keyStar = some (some 2) ∧ t45.len = 45 ∧
      (t45.insert hash keyStar 999).map HashTable.len = some 46) := by
  decide

theorem not_stops_iff (k : K) (e : HashElement K V) :
    ¬ Stops k e ↔ (e.default = false ∧ e.deleted = false ∧ e.key ≠ k) := by
  unfold Stops
  simp [not_or]

/-- C2 (amended): on a well-formed table whose insert does not resize, the
probe walk of `insert` skips exactly the slots that are `Occupied` with a
non-matching key; at the first slot that is `Occupied` with the inserted key
it overwrites the value in place without changing `length`; otherwise it
writes the new entry at the first slot that is `Empty` **or `Tombstoned`**
(the code reuses tombstoned slots; the claim's "first `Empty` slot" is
refuted by the counterexample), marking it `Occupied` and incrementing
`length`. -/
theorem insert_probe_chain (hF : K → Nat) (t : HashTable K V) (k : K) (v : V)
    (hWF : WF t) (hload : 10 * t.len ≤ 7 * t.size) :
    ∃ t' j, t.insert hF k v = some t' ∧ j < t.size ∧
      (∀ m, m < j →
        (slotAt t (probePos t (hF k % t.size) m)).default = false ∧
        (slotAt t (probePos t (hF k % t.size) m)).deleted = false ∧
        (slotAt t (probePos t (hF k % t.size) m)).key ≠ k) ∧
      (((slotAt t (probePos t (hF k % t.size) j)).default = false ∧
        (slotAt t (probePos t (hF k % t.size) j)).deleted = false ∧
        (slotAt t (probePos t (hF k % t.size) j)).key = k ∧
        t' = ⟨t.kvs.set (probePos t (hF k % t.size) j)
          ⟨(slotAt t (probePos t (hF k % t.size) j)).key, v,
           (slotAt t (probePos t (hF k % t.size) j)).default,
           (slotAt t (probePos t (hF k % t.size) j)).deleted⟩, t.len⟩) ∨
       (((slotAt t (probePos t (hF k % t.size) j)).default = true ∨
         (slotAt t (probePos t (hF k % t.size) j)).deleted = true) ∧
        t' = ⟨t.kvs.set (probePos t (hF k % t.size) j) ⟨k, v, false, false⟩,
          t.len + 1⟩)) := by
  obtain ⟨hlen, hlt, hsz⟩ := hWF
  have hs : 0 < t.size := by omega
  have hpos : hF k % t.size < t.size := Nat.mod_lt _ hs
  have hocc : occCount t < t.size := by omega
  obtain ⟨j0, hj0, hstop0⟩ := exists_stop_of_occ_lt t k _ hocc hpos
  have hsome := scan_isSome_of_stop t k t.size _ hpos ⟨j0, hj0, hstop0⟩
  obtain ⟨hit, hh⟩ := Option.isSome_iff_exists.mp hsome
  obtain ⟨j, hj, hbef, hstop, hhit⟩ := scan_some_spec t k t.size _ hit hpos hh
  have hins : t.insert hF k v = some (insertApply t k v hit) := by
    unfold HashTable.insert
    simp only [if_neg (by omega : ¬ (10 * t.len > 7 * t.size))]
    rw [insertLoop_eq_scan, hh]
    rfl
  refine ⟨insertApply t k v hit, j, hins, by omega, ?_, ?_⟩
  · intro m hm
    exact (not_stops_iff k _).mp (hbef m hm)
  · by_cases hfree : (slotAt t (probePos t (hF k % t.size) j)).default = true ∨
        (slotAt t (probePos t (hF k % t.size) j)).deleted = true
    · refine Or.inr ⟨hfree, ?_⟩
      rw [hhit]
      simp [scanHitAt, if_pos hfree, insertApply]
    · have hdf : (slotAt t (probePos t (hF k % t.size) j)).default = false := by
        rcases h1 : (slotAt t (probePos t (hF k % t.size) j)).default with _ | _
        · rfl
        · exact (hfree (Or.inl h1)).elim
      have hdel : (slotAt t (probePos t (hF k % t.size) j)).deleted = false := by
        rcases h1 : (slotAt t (probePos t (hF k % t.size) j)).deleted with _ | _
        · rfl
        · exact (hfree (Or.inr h1)).elim
      have hkey : (slotAt t (probePos t (hF k % t.size) j)).key = k := by
        rcases hstop with h1 | h1 | h1
        · exact (hfree (Or.inl h1)).elim
        · exact (hfree (Or.inr h1)).elim
        · exact h1
      refine Or.inl ⟨hdf, hdel, hkey, ?_⟩
      rw [hhit]
      simp [scanHitAt, if_neg hfree, insertApply]

/-- Witness for the amended C2 at a concrete input: inserting `keyB` into
the table `tR` (whose slot `0` is tombstoned). -/
theorem insert_probe_chain_witness :
    ∃ t' j, tR.insert hash keyB 10 = some t' ∧ j < tR.size ∧
      (∀ m, m < j →
        (slotAt tR (probePos tR ((hash : List Nat → Nat) keyB % tR.size) m)).default = false ∧
        (slotAt tR (probePos tR ((hash : List Nat → Nat) keyB % tR.size) m)).deleted = false ∧
        (slotAt tR (probePos tR ((hash : List Nat → Nat) keyB % tR.size) m)).key ≠ keyB) ∧
      (((slotAt tR (probePos tR ((hash : List Nat → Nat) keyB % tR.size) j)).default = false ∧
        (slotAt tR (probePos tR ((hash : List Nat → Nat) keyB % tR.size) j)).deleted = false ∧
        (slotAt tR (probePos tR ((hash : List Nat → Nat) keyB % tR.size) j)).key = keyB ∧
        t' = ⟨tR.kvs.set (probePos tR ((hash : List Nat → Nat) keyB % tR.size) j)
          ⟨(slotAt tR (probePos tR ((hash : List Nat → Nat) keyB % tR.size) j)).key, 10,
           (slotAt tR (probePos tR ((hash : List Nat → Nat) keyB % tR.size) j)).default,
           (slotAt tR (probePos tR ((hash : List Nat → Nat) keyB % tR.size) j)).deleted⟩,
          tR.len⟩) ∨
       (((slotAt tR (probePos tR ((hash : List Nat → Nat) keyB % tR.size) j)).default = true ∨
         (slotAt tR (probePos tR ((hash : List Nat → Nat) keyB % tR.size) j)).deleted = true) ∧
        t' = ⟨tR.kvs.set (probePos tR ((hash : List Nat → Nat) keyB % tR.size) j)
          ⟨keyB, 10, false, false⟩, tR.len + 1⟩)) :=
  insert_probe_chain hash tR keyB 10 (by decide) (by decide)

/-- C2 counterexample: the claim as stated says the probe walk skips
`Tombstoned` slots and writes only at the first `Empty` slot.  In `tR`
(insert `keyA`, then remove it) slot `0` is `Tombstoned` and slot `1` is
`Empty`; `keyB` also probes from slot `0`, yet `insert keyB` writes into the
tombstoned slot `0` and leaves the empty slot `1` untouched. -/
theorem insert_writes_into_tombstone :
    (hash : List Nat → Nat) keyB % tR.size = 0 ∧
    (slotAt tR 0).deleted = true ∧ (slotAt tR 0).default = false ∧
    (slotAt tR 1).default = true ∧
    tR.insert hash keyB 10 = some tX ∧
    (slotAt tX 0).key = keyB ∧ (slotAt tX 0).default = false ∧
    (slotAt tX 0).deleted = false ∧ (slotAt tX 0).value = 10 ∧
    (slotAt tX 1).default = true ∧ tX.len = tR.len + 1 := by
  decide

theorem insertApply_size (t1 : HashTable K V) (k : K) (v : V) (hit : ScanHit) :
    (insertApply t1 k v hit).size = t1.size := by
  cases hit with
  | found p => exact size_set t1 p _ _
  | free p => exact size_set t1 p _ _

theorem insertApply_len (t1 : HashTable K V) (k : K) (v : V) (hit : ScanHit) :
    (insertApply t1 k v hit).len = t1.len ∨
      (insertApply t1 k v hit).len = t1.len + 1 := by
  cases hit with
  | found p => exact Or.inl rfl
  | free p => exact Or.inr rfl

/-- C5 (amended): the resize check runs before the entry is placed and fires
when the load factor already exceeds 0.7, so an insert that starts with
`10 * len > 7 * size` doubles the capacity (strictly increasing `size()`)
and ends with load factor at most 0.7 again; an insert that starts at or
below 0.7 keeps the capacity.  `len` grows by exactly 1 when a new entry is
written and stays unchanged on an in-place overwrite.  Consequently the
invariant restored after each insert is `10 * len ≤ 7 * size + 10` — the
load factor may exceed 0.7 by up to one entry until the next insert (the
claim's "`len/size ≤ 0.7` immediately after every insert" is refuted by the
counterexample). -/
theorem insert_load_bound (hF : K → Nat) (t : HashTable K V)
    {t' : HashTable K V} (k : K) (v : V)
    (hWF : WF t) (hpre : 10 * t.len ≤ 7 * t.size + 10)
    (h : t.insert hF k v = some t') :
    (t'.len = t.len ∨ t'.len = t.len + 1) ∧
    (10 * t.len > 7 * t.size →
      t'.size = 2 * t.size ∧ t.size < t'.size ∧ 10 * t'.len ≤ 7 * t'.size) ∧
    (10 * t.len ≤ 7 * t.size → t'.size = t.size) ∧
    10 * t'.len ≤ 7 * t'.size + 10 := by
  obtain ⟨hlen, hlt, hsz⟩ := hWF
  by_cases hres : 10 * t.len > 7 * t.size
  · have h' : insertLoop t.resize k v (hF k % t.resize.size) t.resize.size
        = some t' := by
      simpa [HashTable.insert, hres] using h
    rw [insertLoop_eq_scan] at h'
    obtain ⟨hit, hscan, happ⟩ := Option.map_eq_some'.mp h'
    have hsize' : t'.size = t.resize.size := by
      rw [← happ]
      exact insertApply_size t.resize k v hit
    have hlen' : t'.len = t.resize.len ∨ t'.len = t.resize.len + 1 := by
      rw [← happ]
      exact insertApply_len t.resize k v hit
    rw [resize_size] at hsize'
    rw [resize_len] at hlen'
    refine ⟨hlen', fun _ => ⟨hsize', by omega, by omega⟩, fun hc => ?_, by omega⟩
    omega
  · have h' : insertLoop t k v (hF k % t.size) t.size = some t' := by
      simpa [HashTable.insert, hres] using h
    rw [insertLoop_eq_scan] at h'
    obtain ⟨hit, hscan, happ⟩ := Option.map_eq_some'.mp h'
    have hsize' : t'.size = t.size := by
      rw [← happ]
      exact insertApply_size t k v hit
    have hlen' : t'.len = t.len ∨ t'.len = t.len + 1 := by
      rw [← happ]
      exact insertApply_len t k v hit
    exact ⟨hlen', fun hc => by omega, fun _ => hsize', by omega⟩

/-- Witness for the amended C5 at a concrete input: the first insert into a
fresh table (load factor 0) keeps the capacity at 64 and increments `len`. -/
theorem insert_load_bound_witness :
    (t1.len = t0.len ∨ t1.len = t0.len + 1) ∧
    (10 * t0.len > 7 * t0.size →
      t1.size = 2 * t0.size ∧ t0.size < t1.size ∧ 10 * t1.len ≤ 7 * t1.size) ∧
    (10 * t0.len ≤ 7 * t0.size → t1.size = t0.size) ∧
    10 * t1.len ≤ 7 * t1.size + 10 :=
  insert_load_bound hash t0 keyA 1 (by decide) (by decide) (by decide)

/-- C5 counterexample: the claim as stated says `len/size ≤ 0.7` holds
immediately after every insert.  Inserting 45 distinct keys into a fresh
table performs no resize (the pre-insert check sees at most `44/64`), and
the resulting reachable table `t45` has `len/size = 45/64 > 0.7`. -/
theorem load_factor_exceeded_after_insert :
    HashTable.fromList hash seq45 = some t45 ∧
    t45.len = 45 ∧ t45.size = 64 ∧ ¬ (10 * t45.len ≤ 7 * t45.size) ∧
    t45.load_factor > 7 / 10 := by
  refine ⟨by decide, by decide, by decide, by decide, ?_⟩
  rw [load_factor_gt_iff t45 (by decide)]
  decide

/-- C9: on every table state reachable from `new()` or `from(pairs)` by
`insert` and `remove`, all four public operations terminate: each fuelled
probe loop (fuel = the capacity, i.e. at most `capacity` iterations) exits
with a result, so the embedded divergence case never occurs.  `remove`'s
extra `pos < self.size()` guard never fires, since probe positions are
always reduced modulo the capacity; its scan is bounded by the same
capacity fuel. -/
theorem reachable_ops_terminate (hF : K → Nat) (t : HashTable K V)
    (hR : Reachable hF t) (k : K) (v : V) :
    (t.get hF k).isSome ∧ (t.get_mut hF k).isSome ∧
    (t.insert hF k v).isSome ∧ (t.remove hF k).isSome := by
  have hWF := reachable_WF hF hR
  exact ⟨get_isSome hF t k hWF, get_mut_isSome hF t k hWF,
         insert_isSome hF t k v hWF, remove_isSome hF t k hWF⟩

/-- Witness for C9 at a concrete input: all four operations terminate on the
freshly constructed table. -/
theorem reachable_ops_terminate_witness :
    (t0.get hash keyA).isSome ∧ (t0.get_mut hash keyA).isSome ∧
    (t0.insert hash keyA 1).isSome ∧ (t0.remove hash keyA).isSome :=
  reachable_ops_terminate hash t0 Reachable.new keyA 1

theorem size_pos_of_get_mut_some (hF : K → Nat) (t : HashTable K V) (k : K)
    {o : Option (Nat × V)} (h : t.get_mut hF k = some o) : 0 < t.size := by
  rcases Nat.eq_zero_or_pos t.size with hs | hs
  · unfold HashTable.get_mut at h
    rw [hs] at h
    simp [getMutLoop] at h
  · exact hs

/-- C10: `get` and `get_mut` are observers — both are embedded as pure
functions of the table (mirroring `&self` / the untouched `&mut self`), so
calling them changes no slot, `len`, or `size`.  When `get_mut` finds the
key it hands back a reference into slot `p` holding the current value `v`
(the same answer `get` gives); writing `v'` through that reference
(`writeValue`) changes exactly slot `p`'s value – its key and state flags
and every other slot, `len`, and `size` are untouched — and a subsequent
`get` observes `v'`. -/
theorem get_mut_frame (hF : K → Nat) (t : HashTable K V) (k : K) (p : Nat)
    (v : V) (h : t.get_mut hF k = some (some (p, v))) (v' : V) :
    t.get hF k = some (some v) ∧
    p < t.size ∧ (slotAt t p).key = k ∧ (slotAt t p).default = false ∧
    (slotAt t p).deleted = false ∧ (slotAt t p).value = v ∧
    (t.writeValue p v').len = t.len ∧ (t.writeValue p v').size = t.size ∧
    (slotAt (t.writeValue p v') p).key = k ∧
    (slotAt (t.writeValue p v') p).default = false ∧
    (slotAt (t.writeValue p v') p).deleted = false ∧
    (slotAt (t.writeValue p v') p).value = v' ∧
    (∀ q, q ≠ p → slotAt (t.writeValue p v') q = slotAt t q) ∧
    (t.writeValue p v').get hF k = some (some v') := by
  have hs := size_pos_of_get_mut_some hF t k h
  have hpos : hF k % t.size < t.size := Nat.mod_lt _ hs
  unfold HashTable.get_mut at h
  rw [getMutLoop_eq_scan] at h
  obtain ⟨hit, hscan, happ⟩ := Option.map_eq_some'.mp h
  obtain ⟨j, hj, hbef, hstop, hhit⟩ := scan_some_spec t k t.size _ hit hpos hscan
  by_cases hfree : (slotAt t (probePos t (hF k % t.size) j)).default = true ∨
      (slotAt t (probePos t (hF k % t.size) j)).deleted = true
  · rw [hhit] at happ
    simp [scanHitAt, if_pos hfree, getMutApply] at happ
  · have hdf : (slotAt t (probePos t (hF k % t.size) j)).default = false := by
      rcases h1 : (slotAt t (probePos t (hF k % t.size) j)).default with _ | _
      · rfl
      · exact (hfree (Or.inl h1)).elim
    have hdel : (slotAt t (probePos t (hF k % t.size) j)).deleted = false := by
      rcases h1 : (slotAt t (probePos t (hF k % t.size) j)).deleted with _ | _
      · rfl
      · exact (hfree (Or.inr h1)).elim
    have hkey : (slotAt t (probePos t (hF k % t.size) j)).key = k := by
      rcases hstop with h1 | h1 | h1
      · exact (hfree (Or.inl h1)).elim
      · exact (hfree (Or.inr h1)).elim
      · exact h1
    rw [hhit] at happ
    simp only [scanHitAt, if_neg hfree, getMutApply, Option.some.injEq,
      Prod.mk.injEq] at happ
    obtain ⟨hpeq, hveq⟩ := happ
    subst hpeq
    subst hveq
    set p0 := probePos t (hF k % t.size) j with hp0
    have hp : p0 < t.size := probePos_lt t _ j hs
    have hget : t.get hF k = some (some (slotAt t p0).value) := by
      have := get_some_of_first_found hF t k j hs hj hbef hdf hdel hkey
      rw [this]
    have hwdef : ∀ w : V, t.writeValue p0 w =
        (⟨t.kvs.set p0 ⟨(slotAt t p0).key, w, (slotAt t p0).default,
          (slotAt t p0).deleted⟩, t.len⟩ : HashTable K V) := fun w => rfl
    have hsz2 : (t.writeValue p0 v').size = t.size := by
      rw [hwdef v']
      exact size_set t p0 _ _
    have hslotp : slotAt (t.writeValue p0 v') p0 =
        ⟨(slotAt t p0).key, v', (slotAt t p0).default, (slotAt t p0).deleted⟩ := by
      rw [hwdef v']
      exact slotAt_set_self t p0 _ _ hp
    have hslotq : ∀ q, q ≠ p0 → slotAt (t.writeValue p0 v') q = slotAt t q := by
      intro q hq
      rw [hwdef v']
      exact slotAt_set_other t p0 q _ _ (fun he => hq he.symm)
    have hbef2 : ∀ m, m < j →
        ¬ Stops k (slotAt (t.writeValue p0 v')
          (probePos (t.writeValue p0 v') (hF k % (t.writeValue p0 v').size) m)) := by
      intro m hm
      rw [probePos_congr t (t.writeValue p0 v') _ _ hsz2, hsz2]
      have hne : probePos t (hF k % t.size) m ≠ p0 := by
        intro heq
        have := probePos_inj t (hF k % t.size) m j (by omega) hj
          (by rw [← hp0, heq])
        omega
      rw [hslotq _ hne]
      exact hbef m hm
    have hpp : probePos (t.writeValue p0 v')
        (hF k % (t.writeValue p0 v').size) j = p0 := by
      rw [probePos_congr t (t.writeValue p0 v') _ _ hsz2, hsz2, ← hp0]
    have hget2 : (t.writeValue p0 v').get hF k = some (some v') := by
      have := get_some_of_first_found hF (t.writeValue p0 v') k j
        (by omega) (by omega) hbef2
        (by rw [hpp, hslotp]; exact hdf)
        (by rw [hpp, hslotp]; exact hdel)
        (by rw [hpp, hslotp]; exact hkey)
      rw [this, hpp, hslotp]
    refine ⟨hget, hp, hkey, hdf, hdel, rfl, rfl, hsz2, ?_, ?_, ?_, ?_, hslotq, hget2⟩
    · rw [hslotp]
      exact hkey
    · rw [hslotp]
      exact hdf
    · rw [hslotp]
      exact hdel
    · rw [hslotp]

/-- Witness for C10 at a concrete input: `get_mut keyA` on `t1` points at
slot `0` with value `1`; writing `42` through the reference is seen by a
subsequent `get`. -/
theorem get_mut_frame_witness :
    t1.get hash keyA = some (some 1) ∧
    0 < t1.size ∧ (slotAt t1 0).key = keyA ∧ (slotAt t1 0).default = false ∧
    (slotAt t1 0).deleted = false ∧ (slotAt t1 0).value = 1 ∧
    (t1.writeValue 0 42).len = t1.len ∧ (t1.writeValue 0 42).size = t1.size ∧
    (slotAt (t1.writeValue 0 42) 0).key = keyA ∧
    (slotAt (t1.writeValue 0 42) 0).default = false ∧
    (slotAt (t1.writeValue 0 42) 0).deleted = false ∧
    (slotAt (t1.writeValue 0 42) 0).value = 42 ∧
    (∀ q, q ≠ 0 → slotAt (t1.writeValue 0 42) q = slotAt t1 q) ∧
    (t1.writeValue 0 42).get hash keyA = some (some 42) :=
  get_mut_frame hash t1 keyA 0 1 (by decide) 42

/-- C1 (evaluation of the failing input): `keyA` and `keyB` both probe from
slot `0`.  After `insert keyA 1; insert keyB 2`, both keys are retrievable;
after `remove keyA` (which only tombstones slot `0`), `get keyB` hits the
tombstone and wrongly reports absence, although `keyB` was inserted and
never removed.  The lookup loop's condition `!default && !deleted` treats a
tombstoned slot as a scan terminator, defeating the purpose the code's own
comment states for tombstones. -/
theorem get_after_insert_lost_by_tombstone :
    tB.get hash keyA = some (some 1) ∧ tB.get hash keyB = some (some 2) ∧
    tB.remove hash keyA = some (some 1, tC) ∧
    tC.get hash keyB = some none := by
  decide

/-- C3 (evaluation of the failing input): in `tC` (slot `0` tombstoned from
removing `keyA`, slot `1` occupied by `keyB`), inserting `keyB` again stops
at the tombstoned slot `0` and writes a second entry there instead of
updating the existing one: afterwards slots `0` and `1` are both `Occupied`
with the same key `keyB`, and `len = 2` counts the duplicate. -/
theorem insert_creates_duplicate_key :
    tC.len = 1 ∧
    (slotAt tC 1).key = keyB ∧ (slotAt tC 1).default = false ∧
    (slotAt tC 1).deleted = false ∧
    tC.insert hash keyB 3 = some tD ∧
    (slotAt tD 0).key = keyB ∧ (slotAt tD 0).default = false ∧
    (slotAt tD 0).deleted = false ∧ (slotAt tD 0).value = 3 ∧
    (slotAt tD 1).key = keyB ∧ (slotAt tD 1).default = false ∧
    (slotAt tD 1).deleted = false ∧ (slotAt tD 1).value = 2 ∧
    tD.len = 2 := by
  decide

/-- C6 (evaluation of the failing input): in the reachable table `tC`
(insert `keyA`, insert `keyB`, remove `keyA`), `keyB` is present — slot `1`
is `Occupied` with key `keyB` and value `2`, and `len = 1` — yet
`remove keyB` returns the absence signal and leaves the table completely
unchanged: the probe scan stops at the tombstoned slot `0` before ever
comparing keys.  The claim (and the code's own comment on `remove`, which
tombstones precisely to keep later entries in the chain findable) requires
the call to return `2`, tombstone slot `1`, and decrement `len` to `0`. -/
theorem remove_present_behind_tombstone_noop :
    (slotAt tC 0).deleted = true ∧ (slotAt tC 0).default = false ∧
    (slotAt tC 1).key = keyB ∧ (slotAt tC 1).default = false ∧
    (slotAt tC 1).deleted = false ∧ (slotAt tC 1).value = 2 ∧
    tC.len = 1 ∧
    tC.remove hash keyB = some (none, tC) := by
  decide
